import Mathlib

/-!
A shallow embedding of the yate terminal text editor (src/yate-c/yate.c,
the final snapshot of the corpus), together with proofs about its row
store, cursor operations, key decoding and search.

Modelling conventions:
* C byte strings become `List Char`; the editor's global `struct editorConfig E`
  becomes the explicit record `EState` threaded through each operation.
* C `int` coordinates are modelled as `Nat` where every reachable value is
  non-negative (cx, cy, offsets, sizes); `editorInsertRow` keeps its `Int`
  argument because its range guard distinguishes negative positions.
* A row's `render` field is maintained in C as a pure function of `chars`
  (recomputed by `editorUpdateRow` on every mutation), so the state stores
  only `chars` and the embedding recomputes the render where the C code
  reads `row->render`.
* Functions with terminal I/O (save, prompt, refresh) are out of the model;
  `editorFind` is modelled from the point after its prompt returned a query,
  and `editorReadKey` reads from an explicit byte list, exhaustion of the
  list standing for a read timeout.
-/

namespace Yate

/-- KILO_TAB_STOP from yate.c. -/
def KILO_TAB_STOP : Nat := 4

/-- One step of the display-column counter of `editorRowCxToRx` /
`editorRowRxToCx`: a tab advances `rx` by `(KILO_TAB_STOP - 1) - rx % KILO_TAB_STOP`
and then every character advances it by one more. -/
def cxToRxStep (c : Char) (rx : Nat) : Nat :=
  if c = '\t' then rx + ((KILO_TAB_STOP - 1) - rx % KILO_TAB_STOP) + 1 else rx + 1

/-- The loop of `editorRowCxToRx`, folding `cxToRxStep` over the chars. -/
def cxToRxAux : List Char → Nat → Nat
  | [], rx => rx
  | c :: t, rx => cxToRxAux t (cxToRxStep c rx)

/-- editorRowCxToRx(row, cx): walk the bytes before offset cx, accumulating
display columns (yate.c lines 279-290). -/
def editorRowCxToRx (chars : List Char) (cx : Nat) : Nat :=
  cxToRxAux (chars.take cx) 0

/-- The loop of `editorRowRxToCx`: advance `cur_rx` per char with the same
rule and return the current char index once `cur_rx` exceeds the target. -/
def rxToCxAux : List Char → Nat → Nat → Nat → Nat
  | [], _, _, cx => cx
  | c :: t, cur_rx, rx, cx =>
    let cur' := cxToRxStep c cur_rx
    if rx < cur' then cx else rxToCxAux t cur' rx (cx + 1)

/-- editorRowRxToCx(row, rx): inverse walk (yate.c lines 292-307); returns the
row size when rx is beyond the rendered width. -/
def editorRowRxToCx (chars : List Char) (rx : Nat) : Nat :=
  rxToCxAux chars 0 rx 0

theorem cxToRxStep_gt (c : Char) (rx : Nat) : rx < cxToRxStep c rx := by
  unfold cxToRxStep
  split <;> omega

theorem cxToRxAux_le (cs : List Char) (rx : Nat) : rx ≤ cxToRxAux cs rx := by
  induction cs generalizing rx with
  | nil => simp [cxToRxAux]
  | cons c t ih =>
    calc rx ≤ cxToRxStep c rx := Nat.le_of_lt (cxToRxStep_gt c rx)
    _ ≤ cxToRxAux t (cxToRxStep c rx) := ih _
    _ = cxToRxAux (c :: t) rx := rfl

theorem rxToCx_cxToRx_aux (cs : List Char) :
    ∀ cx cur k, cx ≤ cs.length →
      rxToCxAux cs cur (cxToRxAux (cs.take cx) cur) k = k + cx := by
  induction cs with
  | nil =>
    intro cx cur k h
    simp at h
    subst h
    simp [rxToCxAux, cxToRxAux]
  | cons c t ih =>
    intro cx cur k h
    cases cx with
    | zero =>
      simp [cxToRxAux, rxToCxAux, cxToRxStep_gt c cur]
    | succ m =>
      have hm : m ≤ t.length := by simpa using h
      have hge : cxToRxStep c cur ≤ cxToRxAux (t.take m) (cxToRxStep c cur) :=
        cxToRxAux_le _ _
      simp only [List.take_succ_cons, cxToRxAux, rxToCxAux]
      rw [if_neg (by omega)]
      rw [ih m (cxToRxStep c cur) (k + 1) hm]
      omega

/-- C1: for every row and every byte offset `cx` with `0 ≤ cx ≤ row length`,
`editorRowRxToCx(row, editorRowCxToRx(row, cx)) = cx`.  A byte offset never
denotes a column interior to a tab's expansion (the column of offset `cx` is
always the column where byte `cx` starts), so the round trip is exact and the
claim's exception clause never fires. -/
theorem rxToCx_cxToRx_roundtrip (chars : List Char) (cx : Nat)
    (h : cx ≤ chars.length) :
    editorRowRxToCx chars (editorRowCxToRx chars cx) = cx := by
  unfold editorRowRxToCx editorRowCxToRx
  simpa using rxToCx_cxToRx_aux chars cx 0 0 h

/-- Witness for C1 on the row "ab\tc" at offset 3 (just after the tab):
`cxToRx` gives display column 4 and `rxToCx` maps it back to 3. -/
theorem rxToCx_cxToRx_roundtrip_witness :
    editorRowCxToRx ['a', 'b', '\t', 'c'] 3 = 4 ∧
      editorRowRxToCx ['a', 'b', '\t', 'c'] (editorRowCxToRx ['a', 'b', '\t', 'c'] 3) = 3 :=
  ⟨by decide, rxToCx_cxToRx_roundtrip ['a', 'b', '\t', 'c'] 3 (by decide)⟩

/-! ## The editor state and its row operations -/

/-- The parts of `struct editorConfig E` that the modelled operations read or
write.  `numrows` is `rows.length`; each row stores its `chars` (the `render`
is the derived `editorUpdateRow` of the chars and is recomputed where read).
`rx` is recomputed from `cx` on every scroll and is not stored. -/
structure EState where
  cx : Nat
  cy : Nat
  rowoff : Nat
  coloff : Nat
  screenrows : Nat
  screencols : Nat
  rows : List (List Char)
  dirty : Nat
deriving DecidableEq, Repr

/-- editorUpdateRow (yate.c lines 309-336): the render of a row, with each tab
replaced by spaces up to the next multiple of `KILO_TAB_STOP`.  `idx` is the
number of render bytes already emitted (the current display column). -/
def renderAux : List Char → Nat → List Char
  | [], _ => []
  | c :: t, idx =>
    if c = '\t' then
      List.replicate (KILO_TAB_STOP - idx % KILO_TAB_STOP) ' '
        ++ renderAux t (idx + (KILO_TAB_STOP - idx % KILO_TAB_STOP))
    else
      c :: renderAux t (idx + 1)

/-- The render string of a row (the `render`/`rsize` fields after
`editorUpdateRow` ran on it). -/
def editorUpdateRow (chars : List Char) : List Char :=
  renderAux chars 0

/-- editorInsertRow (yate.c lines 338-355): out-of-range `at` is rejected
(the function returns without inserting); otherwise the new row is inserted
at `at`, shifting the following rows, and the dirty counter is incremented. -/
def editorInsertRow (at_ : Int) (s : List Char) (st : EState) : EState :=
  if at_ < 0 ∨ (st.rows.length : Int) < at_ then st
  else { st with rows := st.rows.insertIdx at_.toNat s, dirty := st.dirty + 1 }

/-- editorRowInsertChar (yate.c lines 372-386), row part: an out-of-range
offset is clamped to the row length, then the byte is inserted there.
The accompanying `E.dirty++` is applied by the callers of this helper. -/
def editorRowInsertChar (row : List Char) (at_ : Nat) (c : Char) : List Char :=
  let at_ := if row.length < at_ then row.length else at_
  row.insertIdx at_ c

/-- editorInsertChar (yate.c lines 411-417): append an empty row first when
the cursor sits on the virtual past-end row, then insert the byte at `cx`
and advance `cx`. -/
def editorInsertChar (c : Char) (st : EState) : EState :=
  let st := if st.cy = st.rows.length
            then editorInsertRow (st.rows.length : Int) [] st
            else st
  let row := st.rows.getD st.cy []
  { st with rows := st.rows.set st.cy (editorRowInsertChar row st.cx c),
            dirty := st.dirty + 1,
            cx := st.cx + 1 }

/-- editorInsertNewLine (yate.c lines 420-434): at `cx = 0` insert an empty
row above; otherwise move the tail `[cx, size)` of the current row to a new
row below and truncate the current row to `[0, cx)`.  Either way the cursor
moves to the start of the next row. -/
def editorInsertNewLine (st : EState) : EState :=
  if st.cx = 0 then
    let st := editorInsertRow (st.cy : Int) [] st
    { st with cy := st.cy + 1, cx := 0 }
  else
    let row := st.rows.getD st.cy []
    let st1 := editorInsertRow ((st.cy : Int) + 1) (row.drop st.cx) st
    let st2 := { st1 with rows := st1.rows.set st.cy (row.take st.cx) }
    { st2 with cy := st2.cy + 1, cx := 0 }

/-- editorDelChar (yate.c lines 437-458).  On the virtual past-end row, or at
the very start of the document, it returns unchanged.  With `cx > 0` it
deletes the byte left of the cursor (`editorRowDelChar`, which itself ignores
an out-of-range offset and only then bumps `dirty`).  With `cx = 0, cy > 0`
it appends the row to the previous one (`editorRowAppendString`, `dirty++`),
deletes it (`editorDelRow`, `dirty++`) and moves the cursor to the join. -/
def editorDelChar (st : EState) : EState :=
  if st.cy = st.rows.length then st
  else if st.cx = 0 ∧ st.cy = 0 then st
  else
    let row := st.rows.getD st.cy []
    if 0 < st.cx then
      if st.cx - 1 < row.length then
        { st with rows := st.rows.set st.cy (row.eraseIdx (st.cx - 1)),
                  dirty := st.dirty + 1,
                  cx := st.cx - 1 }
      else { st with cx := st.cx - 1 }
    else
      let prev := st.rows.getD (st.cy - 1) []
      { st with cx := prev.length,
                rows := (st.rows.set (st.cy - 1) (prev ++ row)).eraseIdx st.cy,
                dirty := st.dirty + 2,
                cy := st.cy - 1 }

/-- editorRowsToString (yate.c lines 462-482): every row followed by a single
newline, the last row included. -/
def editorRowsToString (st : EState) : List Char :=
  st.rows.foldl (fun buf r => buf ++ r ++ ['\n']) []

/-! ## Key decoding (editorReadKey) -/

/-- The `editorKey` enum values together with the plain bytes. -/
def BACKSPACE : Nat := 127
def ARROW_LEFT : Nat := 1000
def ARROW_RIGHT : Nat := 1001
def ARROW_UP : Nat := 1002
def ARROW_DOWN : Nat := 1003
def DEL_KEY : Nat := 1004
def HOME_KEY : Nat := 1005
def END_KEY : Nat := 1006
def PAGE_UP : Nat := 1007
def PAGE_DOWN : Nat := 1008

/-- The `switch(seq[1])` of the `ESC [ <digit> ~` branch: digits 1,7 map to
Home, 3 to Delete, 4,8 to End, 5/6 to Page Up/Down, anything else falls
through to the final `return ESC`. -/
def escBracketDigitKey (s1 : Nat) : Nat :=
  if s1 = 49 then HOME_KEY
  else if s1 = 51 then DEL_KEY
  else if s1 = 52 then END_KEY
  else if s1 = 53 then PAGE_UP
  else if s1 = 54 then PAGE_DOWN
  else if s1 = 55 then HOME_KEY
  else if s1 = 56 then END_KEY
  else 27

/-- The `switch(seq[1])` of the `ESC [ <letter>` branch. -/
def escBracketLetterKey (s1 : Nat) : Nat :=
  if s1 = 65 then ARROW_UP
  else if s1 = 66 then ARROW_DOWN
  else if s1 = 67 then ARROW_RIGHT
  else if s1 = 68 then ARROW_LEFT
  else if s1 = 72 then HOME_KEY
  else if s1 = 70 then END_KEY
  else 27

/-- The `switch(seq[1])` of the `ESC O` branch. -/
def escOKey (s1 : Nat) : Nat :=
  if s1 = 72 then HOME_KEY
  else if s1 = 70 then END_KEY
  else 27

/-- editorReadKey (yate.c lines 178-234) over an explicit input byte list.
The first `read` loops until a byte arrives, so an empty stream gives `none`;
for the later reads an exhausted stream stands for the 100 ms timeout, which
makes the call return the escape byte 27 with whatever it has consumed. -/
def editorReadKey : List Nat → Option (Nat × List Nat)
  | [] => none
  | c :: rest =>
    if c = 27 then
      match rest with
      | [] => some (27, [])
      | s0 :: r1 =>
        match r1 with
        | [] => some (27, [])
        | s1 :: r2 =>
          if s0 = 91 then
            if 48 ≤ s1 ∧ s1 ≤ 57 then
              match r2 with
              | [] => some (27, [])
              | s2 :: r3 =>
                some (if s2 = 126 then escBracketDigitKey s1 else 27, r3)
            else some (escBracketLetterKey s1, r2)
          else if s0 = 79 then some (escOKey s1, r2)
          else some (27, r2)
    else some (c, rest)

/-! ## Cursor movement and keypress dispatch -/

/-- The logical keys whose `editorProcessKeypress` cases mutate only the
editor state.  Ctrl-Q (exit), Ctrl-S (save) and Ctrl-F (find) drive terminal
and file I/O and are modelled apart (`editorFind` below takes the prompt's
result as an argument). -/
inductive Key where
  | arrowLeft
  | arrowRight
  | arrowUp
  | arrowDown
  | delKey
  | homeKey
  | endKey
  | pageUp
  | pageDown
  | enter
  | backspace
  | ctrlL
  | escape
  | printable (c : Char)
deriving DecidableEq, Repr

/-- editorMoveCursor (yate.c lines 840-879).  After the arrow-specific step,
`cx` is clamped to the length of the (possibly new) current row, the virtual
past-end row counting as length 0. -/
def editorMoveCursor (k : Key) (st : EState) : EState :=
  let hasRow := st.cy < st.rows.length
  let rowlen := (st.rows.getD st.cy []).length
  let st :=
    match k with
    | Key.arrowLeft =>
      if st.cx ≠ 0 then { st with cx := st.cx - 1 }
      else if 0 < st.cy then
        { st with cy := st.cy - 1, cx := (st.rows.getD (st.cy - 1) []).length }
      else st
    | Key.arrowRight =>
      if hasRow ∧ st.cx < rowlen then { st with cx := st.cx + 1 }
      else if hasRow ∧ st.cx = rowlen then { st with cy := st.cy + 1, cx := 0 }
      else st
    | Key.arrowUp => if st.cy ≠ 0 then { st with cy := st.cy - 1 } else st
    | Key.arrowDown =>
      if st.cy < st.rows.length then { st with cy := st.cy + 1 } else st
    | _ => st
  let rowlen2 := if st.cy < st.rows.length then (st.rows.getD st.cy []).length else 0
  if rowlen2 < st.cx then { st with cx := rowlen2 } else st

/-- `while(times--) body;` -/
def iterTimes (f : EState → EState) : Nat → EState → EState
  | 0, st => st
  | n + 1, st => iterTimes f n (f st)

/-- editorProcessKeypress (yate.c lines 882-961), the state-mutating cases.
The End case reproduces the source exactly: the row-length assignment is
unconditionally overwritten by `E.cx = E.screencols - 1`. -/
def editorProcessKeypress (k : Key) (st : EState) : EState :=
  match k with
  | Key.enter => editorInsertNewLine st
  | Key.homeKey => { st with cx := 0 }
  | Key.endKey =>
    let st := if st.cy < st.rows.length
              then { st with cx := (st.rows.getD st.cy []).length }
              else st
    { st with cx := st.screencols - 1 }
  | Key.backspace => editorDelChar st
  | Key.delKey => editorDelChar (editorMoveCursor Key.arrowRight st)
  | Key.pageUp =>
    let st := { st with cy := st.rowoff }
    iterTimes (editorMoveCursor Key.arrowUp) st.screenrows st
  | Key.pageDown =>
    let st := { st with cy := st.rowoff + st.screenrows - 1 }
    let st := if st.rows.length < st.cy then { st with cy := st.rows.length } else st
    iterTimes (editorMoveCursor Key.arrowDown) st.screenrows st
  | Key.arrowLeft => editorMoveCursor k st
  | Key.arrowRight => editorMoveCursor k st
  | Key.arrowUp => editorMoveCursor k st
  | Key.arrowDown => editorMoveCursor k st
  | Key.ctrlL => st
  | Key.escape => st
  | Key.printable c => editorInsertChar c st

/-! ## Scrolling and search -/

/-- editorScroll (yate.c lines 610-634): recompute the display column and
pull the offsets so the cursor is inside the window. -/
def editorScroll (st : EState) : EState :=
  let rx := if st.cy < st.rows.length
            then editorRowCxToRx (st.rows.getD st.cy []) st.cx
            else st.cx
  let st := if st.cy < st.rowoff then { st with rowoff := st.cy } else st
  let st := if st.rowoff + st.screenrows ≤ st.cy
            then { st with rowoff := st.cy - st.screenrows + 1 } else st
  let st := if rx < st.coloff then { st with coloff := rx } else st
  let st := if st.coloff + st.screencols ≤ rx
            then { st with coloff := rx - st.screencols + 1 } else st
  st

/-- strstr(hay, needle) as the index of the first occurrence of `needle` as a
contiguous substring of `hay`. -/
def strstrPos (hay needle : List Char) : Option Nat :=
  if needle.isPrefixOf hay then some 0
  else
    match hay with
    | [] => none
    | _ :: t => (strstrPos t needle).map (· + 1)

/-- editorFind (yate.c lines 525-545) after its prompt returned: `none` is a
cancelled prompt (immediate return);  with a query, scan the rows in index
order, and at the first row whose render contains the query set `cy` to the
row index, `cx` to the char offset of the match's display column, and
`rowoff` to the row count. -/
def editorFindLoop (q : List Char) (st : EState) : Nat → List (List Char) → EState
  | _, [] => st
  | i, row :: rest =>
    match strstrPos (editorUpdateRow row) q with
    | some p =>
      { st with cy := i, cx := editorRowRxToCx row p, rowoff := st.rows.length }
    | none => editorFindLoop q st (i + 1) rest

def editorFind (query : Option (List Char)) (st : EState) : EState :=
  match query with
  | none => st
  | some q => editorFindLoop q st 0 st.rows


/-! ## Frame properties of editorDelChar (C7, C9) -/

/-- C7: editorDelChar at document start (`cx = 0`, `cy = 0`) is a no-op:
rows, row count, dirty counter and cursor are all unchanged. -/
theorem editorDelChar_at_document_start (st : EState)
    (h1 : st.cx = 0) (h2 : st.cy = 0) :
    editorDelChar st = st := by
  unfold editorDelChar
  simp [h1, h2]

/-- Witness for C7 on a concrete two-row document. -/
theorem editorDelChar_at_document_start_witness :
    editorDelChar ⟨0, 0, 0, 0, 24, 80, [['a', 'b'], ['c']], 3⟩
      = ⟨0, 0, 0, 0, 24, 80, [['a', 'b'], ['c']], 3⟩ :=
  editorDelChar_at_document_start _ rfl rfl

/-- C9: editorDelChar with the cursor on the virtual past-end row
(`cy = rowCount`) is a no-op for every document and every `cx`, the
non-empty documents included. -/
theorem editorDelChar_on_virtual_row (st : EState)
    (h : st.cy = st.rows.length) :
    editorDelChar st = st := by
  unfold editorDelChar
  rw [if_pos h]

/-- Witness for C9 on a concrete non-empty document with `cx = 2`. -/
theorem editorDelChar_on_virtual_row_witness :
    editorDelChar ⟨2, 2, 0, 0, 24, 80, [['a'], ['b', 'c']], 5⟩
      = ⟨2, 2, 0, 0, 24, 80, [['a'], ['b', 'c']], 5⟩ :=
  editorDelChar_on_virtual_row _ rfl

/-! ## The cursor invariant and the End key (C2) -/

/-- The cursor invariant of the specification: `0 ≤ cy ≤ rowCount`, and
`0 ≤ cx ≤ row[cy].length` when `cy < rowCount`, else `cx = 0`. -/
def cursorOK (st : EState) : Prop :=
  st.cy ≤ st.rows.length ∧
    (if st.cy < st.rows.length
     then st.cx ≤ (st.rows.getD st.cy []).length
     else st.cx = 0)

instance (st : EState) : Decidable (cursorOK st) := by
  unfold cursorOK
  infer_instance

/-- C2 fails in the code: the End case of editorProcessKeypress assigns
`E.cx = E.row[E.cy].size` and then unconditionally overwrites it with
`E.cx = E.screencols - 1` (yate.c line 916, a dead store), so on an
80-column screen showing a document whose only row is empty, one End
keypress moves the cursor to `cx = 79`, past the row's length 0, violating
the invariant that every other operation maintains. -/
theorem endKey_violates_cursor_invariant :
    cursorOK ⟨0, 0, 0, 0, 24, 80, [[]], 0⟩ ∧
      editorProcessKeypress Key.endKey ⟨0, 0, 0, 0, 24, 80, [[]], 0⟩
        = ⟨79, 0, 0, 0, 24, 80, [[]], 0⟩ ∧
      ¬ cursorOK ⟨79, 0, 0, 0, 24, 80, [[]], 0⟩ := by
  decide

/-! ## editorInsertRow range handling (C6) -/

theorem insertIdx_eq_take_cons_drop {α : Type} (a : α) :
    ∀ (l : List α) (n : Nat), n ≤ l.length →
      l.insertIdx n a = l.take n ++ a :: l.drop n := by
  intro l
  induction l with
  | nil =>
    intro n h
    simp at h
    subst h
    rfl
  | cons x t ih =>
    intro n h
    cases n with
    | zero => rfl
    | succ m =>
      have hm : m ≤ t.length := by simpa using h
      simp [ih m hm]

/-- C6 corrected: editorInsertRow does not clamp.  For `0 ≤ at ≤ rowCount`
it inserts the new row at `at`, shifting the following rows, and increments
the dirty counter; for any other `at` it returns the state unchanged. -/
theorem editorInsertRow_spec (st : EState) (at_ : Int) (s : List Char) :
    (0 ≤ at_ → at_ ≤ (st.rows.length : Int) →
      (editorInsertRow at_ s st).rows
          = st.rows.take at_.toNat ++ s :: st.rows.drop at_.toNat ∧
        (editorInsertRow at_ s st).dirty = st.dirty + 1) ∧
    (at_ < 0 ∨ (st.rows.length : Int) < at_ →
      editorInsertRow at_ s st = st) := by
  constructor
  · intro h0 hle
    have hn : at_.toNat ≤ st.rows.length := by omega
    unfold editorInsertRow
    rw [if_neg (by omega)]
    exact ⟨by simp [insertIdx_eq_take_cons_drop _ _ _ hn], rfl⟩
  · intro h
    unfold editorInsertRow
    rw [if_pos (by omega)]

/-- Counterexample to C6 as stated: on the empty document, `at = 1` is out
of range; the claim predicts clamping to 0 and an insertion (rows would
become `[['x']]` with the dirty counter incremented), but the code performs
no insertion and leaves dirty at 0. -/
theorem editorInsertRow_does_not_clamp :
    (editorInsertRow 1 ['x'] ⟨0, 0, 0, 0, 24, 80, [], 0⟩).rows ≠ [['x']] ∧
      (editorInsertRow 1 ['x'] ⟨0, 0, 0, 0, 24, 80, [], 0⟩).dirty = 0 := by
  decide

/-- Witness for C6 (amended): inserting at position 1 of a two-row document. -/
theorem editorInsertRow_spec_witness :
    (editorInsertRow 1 ['x'] ⟨0, 0, 0, 0, 24, 80, [['a'], ['b']], 0⟩).rows
        = [['a'], ['x'], ['b']] ∧
      (editorInsertRow 1 ['x'] ⟨0, 0, 0, 0, 24, 80, [['a'], ['b']], 0⟩).dirty = 1 := by
  have h := (editorInsertRow_spec ⟨0, 0, 0, 0, 24, 80, [['a'], ['b']], 0⟩ 1 ['x']).1
    (by decide) (by decide)
  exact ⟨by rw [h.1]; rfl, h.2⟩

/-! ## editorReadKey consumption bound (C5) -/

/-- Counterexample to C5 as stated: decoding the 4-byte Page Up sequence
`ESC [ 5 ~` consumes all 4 bytes in one editorReadKey call, one more than
the claimed 3-byte bound. -/
theorem editorReadKey_consumes_four_bytes :
    editorReadKey [27, 91, 53, 126] = some (PAGE_UP, []) ∧
      ¬ (([27, 91, 53, 126] : List Nat).length
          - (([] : List Nat)).length ≤ 3) := by
  decide

/-- C5 corrected: a single editorReadKey call consumes at most 4 bytes of
the input stream (1 for a plain byte, up to 4 for an `ESC [ digit ~`
escape sequence). -/
theorem editorReadKey_consumes_at_most_four (input : List Nat) (k : Nat)
    (rest : List Nat) (h : editorReadKey input = some (k, rest)) :
    input.length ≤ rest.length + 4 := by
  match input with
  | [] => simp [editorReadKey] at h
  | [c] =>
    simp only [editorReadKey] at h
    split_ifs at h <;> simp_all
  | [c, s0] =>
    simp only [editorReadKey] at h
    split_ifs at h <;> simp_all
  | [c, s0, s1] =>
    simp only [editorReadKey] at h
    split_ifs at h <;> simp_all
  | c :: s0 :: s1 :: s2 :: r =>
    simp only [editorReadKey] at h
    split_ifs at h <;> simp_all

/-- Witness for C5 (amended) on the 4-byte Page Up sequence. -/
theorem editorReadKey_consumes_at_most_four_witness :
    ([27, 91, 53, 126] : List Nat).length ≤ ([] : List Nat).length + 4 :=
  editorReadKey_consumes_at_most_four [27, 91, 53, 126] PAGE_UP [] (by decide)

/-! ## Render invariants of editorUpdateRow (C10) -/

/-- The non-tab bytes of a row. -/
def nonTab (c : Char) : Bool := c != '\t'

theorem renderAux_append (xs ys : List Char) :
    ∀ idx, renderAux (xs ++ ys) idx
      = renderAux xs idx ++ renderAux ys (idx + (renderAux xs idx).length) := by
  induction xs with
  | nil => intro idx; simp [renderAux]
  | cons c t ih =>
    intro idx
    by_cases hc : c = '\t'
    · simp only [List.cons_append, renderAux, if_pos hc, List.append_assoc,
        List.length_append, List.length_replicate, List.append_eq]
      rw [ih]
      have harg : idx + (KILO_TAB_STOP - idx % KILO_TAB_STOP)
            + (renderAux t (idx + (KILO_TAB_STOP - idx % KILO_TAB_STOP))).length
          = idx + (KILO_TAB_STOP - idx % KILO_TAB_STOP
            + (renderAux t (idx + (KILO_TAB_STOP - idx % KILO_TAB_STOP))).length) := by
        unfold KILO_TAB_STOP
        omega
      rw [harg]
    · simp only [List.cons_append, renderAux, if_neg hc, List.length_cons,
        List.append_eq]
      rw [ih]
      have harg : idx + 1 + (renderAux t (idx + 1)).length
          = idx + ((renderAux t (idx + 1)).length + 1) := by omega
      rw [harg]

theorem renderAux_length (xs : List Char) :
    ∀ idx, idx + (renderAux xs idx).length = cxToRxAux xs idx := by
  induction xs with
  | nil => intro idx; simp [renderAux, cxToRxAux]
  | cons c t ih =>
    intro idx
    by_cases hc : c = '\t'
    · have hstep : cxToRxStep c idx
          = idx + (KILO_TAB_STOP - idx % KILO_TAB_STOP) := by
        unfold cxToRxStep KILO_TAB_STOP
        rw [if_pos hc]
        omega
      simp only [renderAux, if_pos hc, cxToRxAux, hstep, List.length_append,
        List.length_replicate]
      rw [← ih]
      omega
    · have hstep : cxToRxStep c idx = idx + 1 := by
        unfold cxToRxStep
        rw [if_neg hc]
      simp only [renderAux, if_neg hc, cxToRxAux, hstep, List.length_cons]
      rw [← ih]
      omega

theorem tab_not_mem_renderAux (xs : List Char) :
    ∀ idx, '\t' ∉ renderAux xs idx := by
  induction xs with
  | nil => intro idx; simp [renderAux]
  | cons c t ih =>
    intro idx
    by_cases hc : c = '\t'
    · simp only [renderAux, if_pos hc]
      intro hmem
      rcases List.mem_append.mp hmem with hsp | hrest
      · exact absurd (List.eq_of_mem_replicate hsp) (by decide)
      · exact ih _ hrest
    · simp only [renderAux, if_neg hc]
      intro hmem
      rcases List.mem_cons.mp hmem with heq | hrest
      · exact hc heq.symm
      · exact ih _ hrest

theorem filter_sublist_renderAux (xs : List Char) :
    ∀ idx, (xs.filter nonTab).Sublist (renderAux xs idx) := by
  induction xs with
  | nil => intro idx; simp [renderAux]
  | cons c t ih =>
    intro idx
    by_cases hc : c = '\t'
    · have hn : nonTab c = false := by simp [nonTab, hc]
      simp only [renderAux, if_pos hc, List.filter_cons, hn]
      simp only [Bool.false_eq_true, if_false]
      exact (ih _).trans (List.sublist_append_right _ _)
    · have hn : nonTab c = true := by simp [nonTab, hc]
      simp only [renderAux, if_neg hc, List.filter_cons, hn, if_true]
      exact (ih _).cons₂ c

/-- C10: after editorUpdateRow, the render contains no tab byte; the non-tab
bytes of `chars` appear verbatim in order (as a sublist of the render); the
render length is the rendered width of the whole row (`editorRowCxToRx` at
the row length, i.e. chars length plus the total tab padding); appending a
non-tab byte extends the render by that byte, while appending a tab extends
it by between 1 and `KILO_TAB_STOP` spaces ending exactly at the next
multiple of `KILO_TAB_STOP`. -/
theorem editorUpdateRow_spec (cs : List Char) :
    '\t' ∉ editorUpdateRow cs
    ∧ (cs.filter nonTab).Sublist (editorUpdateRow cs)
    ∧ (editorUpdateRow cs).length = editorRowCxToRx cs cs.length
    ∧ (∀ c, c ≠ '\t' → editorUpdateRow (cs ++ [c]) = editorUpdateRow cs ++ [c])
    ∧ editorUpdateRow (cs ++ ['\t'])
        = editorUpdateRow cs
          ++ List.replicate
              (KILO_TAB_STOP - (editorUpdateRow cs).length % KILO_TAB_STOP) ' '
    ∧ 1 ≤ KILO_TAB_STOP - (editorUpdateRow cs).length % KILO_TAB_STOP
    ∧ KILO_TAB_STOP - (editorUpdateRow cs).length % KILO_TAB_STOP ≤ KILO_TAB_STOP
    ∧ (editorUpdateRow (cs ++ ['\t'])).length % KILO_TAB_STOP = 0 := by
  have hlen : (editorUpdateRow cs).length = cxToRxAux cs 0 := by
    have := renderAux_length cs 0
    unfold editorUpdateRow
    omega
  have htab : editorUpdateRow (cs ++ ['\t'])
      = editorUpdateRow cs
        ++ List.replicate
            (KILO_TAB_STOP - (editorUpdateRow cs).length % KILO_TAB_STOP) ' ' := by
    unfold editorUpdateRow
    rw [renderAux_append cs ['\t'] 0]
    simp [renderAux]
  have hts : (0 : Nat) < KILO_TAB_STOP := by decide
  have hmod : (editorUpdateRow cs).length % KILO_TAB_STOP < KILO_TAB_STOP :=
    Nat.mod_lt _ hts
  refine ⟨tab_not_mem_renderAux cs 0, filter_sublist_renderAux cs 0, ?_, ?_, htab,
    by omega, by omega, ?_⟩
  · unfold editorRowCxToRx
    rw [List.take_length]
    exact hlen
  · intro c hc
    unfold editorUpdateRow
    rw [renderAux_append cs [c] 0]
    simp [renderAux, hc]
  · rw [htab]
    simp only [List.length_append, List.length_replicate]
    unfold KILO_TAB_STOP at hmod ⊢
    omega

/-- Witness for C10 on the row "ab\tc": instantiates the conjunct with the
non-tab hypothesis at c = 'x'. -/
theorem editorUpdateRow_spec_witness :
    editorUpdateRow (['a', 'b', '\t', 'c'] ++ ['x'])
      = editorUpdateRow ['a', 'b', '\t', 'c'] ++ ['x'] :=
  (editorUpdateRow_spec ['a', 'b', '\t', 'c']).2.2.2.1 'x' (by decide)

/-! ## Edit sequences against the naive flat-string model (C3) -/

/-- The two editor operations of the claim. -/
inductive EditOp where
  | ins (c : Char)
  | del
deriving DecidableEq, Repr

def isIns : EditOp → Bool
  | .ins _ => true
  | .del => false

def applyEditOp (st : EState) (op : EditOp) : EState :=
  match op with
  | .ins c => editorInsertChar c st
  | .del => editorDelChar st

/-- The naive flat-string model: an insertion appends the character, a
deletion removes the last character (the deletion applied at the cursor,
which these two operations keep at the end of the text). -/
def naiveApply (s : List Char) (op : EditOp) : List Char :=
  match op with
  | .ins c => s ++ [c]
  | .del => s.dropLast

/-- The empty document the interaction loop starts from with no file. -/
def emptyDocument : EState := ⟨0, 0, 0, 0, 24, 80, [], 0⟩

def applyEditOps (ops : List EditOp) : EState :=
  ops.foldl applyEditOp emptyDocument

def naiveApplyOps (ops : List EditOp) : List Char :=
  ops.foldl naiveApply []

/-- Correspondence between an editor state and the naive model: before the
first insertion the document is still empty; afterwards it is the single row
holding exactly the naive text, with the cursor at its end. -/
def SimDoc (st : EState) (n : List Char) (seen : Bool) : Prop :=
  if seen then st.rows = [n] ∧ st.cx = n.length ∧ st.cy = 0
  else st.rows = [] ∧ st.cx = 0 ∧ st.cy = 0 ∧ n = []

theorem simDoc_step (st : EState) (n : List Char) (seen : Bool) (op : EditOp)
    (h : SimDoc st n seen) :
    SimDoc (applyEditOp st op) (naiveApply n op) (seen || isIns op) := by
  cases op with
  | ins c =>
    cases seen with
    | false =>
      obtain ⟨hrows, hcx, hcy, hn⟩ : _ ∧ _ ∧ _ ∧ _ := by simpa [SimDoc] using h
      subst hn
      simp only [SimDoc, applyEditOp, naiveApply, isIns, Bool.or_true, if_pos]
      simp [editorInsertChar, editorInsertRow, editorRowInsertChar,
        hrows, hcx, hcy]
    | true =>
      obtain ⟨hrows, hcx, hcy⟩ : _ ∧ _ ∧ _ := by simpa [SimDoc] using h
      simp only [SimDoc, applyEditOp, naiveApply, isIns, Bool.or_true, if_pos]
      refine ⟨?_, ?_, ?_⟩ <;>
        simp [editorInsertChar, editorInsertRow, editorRowInsertChar,
          hrows, hcx, hcy, List.insertIdx_length_self]
  | del =>
    cases seen with
    | false =>
      obtain ⟨hrows, hcx, hcy, hn⟩ : _ ∧ _ ∧ _ ∧ _ := by simpa [SimDoc] using h
      subst hn
      simp only [SimDoc, applyEditOp, naiveApply, isIns, Bool.or_false, if_neg]
      simp [editorDelChar, hrows, hcx, hcy]
    | true =>
      obtain ⟨hrows, hcx, hcy⟩ : _ ∧ _ ∧ _ := by simpa [SimDoc] using h
      simp only [SimDoc, applyEditOp, naiveApply, isIns, Bool.or_false, if_pos]
      rcases n with _ | ⟨a, t⟩
      · simp [editorDelChar, hrows, hcx, hcy]
      · have hlen : t.length + 1 = (a :: t).length := by simp
        have herase : (a :: t).eraseIdx t.length = (a :: t).dropLast :=
          (List.dropLast_eq_eraseIdx hlen).symm
        refine ⟨?_, ?_, ?_⟩ <;>
          simp [editorDelChar, hrows, hcx, hcy, herase]

theorem simDoc_fold (ops : List EditOp) :
    ∀ (st : EState) (n : List Char) (seen : Bool), SimDoc st n seen →
      SimDoc (ops.foldl applyEditOp st) (ops.foldl naiveApply n)
        (seen || ops.any isIns) := by
  induction ops with
  | nil =>
    intro st n seen h
    simpa using h
  | cons op rest ih =>
    intro st n seen h
    have h2 := ih _ _ _ (simDoc_step st n seen op h)
    simpa [Bool.or_assoc] using h2

/-- C3 corrected: after any sequence of editorInsertChar/editorDelChar
operations from the empty document, editorRowsToString returns the naive
flat-string result followed by one trailing newline as soon as the sequence
contains an insertion, and the empty string otherwise. -/
theorem rowsToString_refines_naive (ops : List EditOp) :
    editorRowsToString (applyEditOps ops)
      = if ops.any isIns then naiveApplyOps ops ++ ['\n'] else [] := by
  have h0 : SimDoc emptyDocument [] false := by
    simp [SimDoc, emptyDocument]
  have h := simDoc_fold ops emptyDocument [] false h0
  simp only [Bool.false_or] at h
  unfold applyEditOps naiveApplyOps
  by_cases ha : ops.any isIns = true
  · rw [if_pos ha]
    rw [ha] at h
    obtain ⟨hrows, -, -⟩ : _ ∧ _ ∧ _ := by simpa [SimDoc] using h
    simp [editorRowsToString, hrows]
  · have ha' : ops.any isIns = false := by simpa using ha
    rw [if_neg (by simp [ha'])]
    rw [ha'] at h
    obtain ⟨hrows, -, -, -⟩ : _ ∧ _ ∧ _ ∧ _ := by simpa [SimDoc] using h
    simp [editorRowsToString, hrows]

/-- Counterexample to C3 as stated: one insertion of 'a' from the empty
document serializes to "a\n", not to the naive flat string "a" — every row,
the last included, gets a trailing newline in editorRowsToString. -/
theorem rowsToString_not_equal_naive :
    editorRowsToString (applyEditOps [EditOp.ins 'a'])
      ≠ naiveApplyOps [EditOp.ins 'a'] := by
  decide

/-! ## Split followed by merge (C4) -/

theorem getD_append_len {α : Type} (d : α) :
    ∀ (pre rest : List α) (i : Nat),
      (pre ++ rest).getD (pre.length + i) d = rest.getD i d := by
  intro pre
  induction pre with
  | nil => intro rest i; simp
  | cons x p ih =>
    intro rest i
    have harg : p.length + 1 + i = (p.length + i) + 1 := by omega
    simp only [List.cons_append, List.length_cons, harg, List.getD_cons_succ]
    exact ih rest i

theorem set_append_len {α : Type} :
    ∀ (pre rest : List α) (i : Nat) (y : α),
      (pre ++ rest).set (pre.length + i) y = pre ++ rest.set i y := by
  intro pre
  induction pre with
  | nil => intro rest i y; simp
  | cons x p ih =>
    intro rest i y
    have harg : p.length + 1 + i = (p.length + i) + 1 := by omega
    simp only [List.cons_append, List.length_cons, harg, List.set_cons_succ]
    rw [ih rest i y]

theorem eraseIdx_append_len {α : Type} :
    ∀ (pre rest : List α) (i : Nat),
      (pre ++ rest).eraseIdx (pre.length + i) = pre ++ rest.eraseIdx i := by
  intro pre
  induction pre with
  | nil => intro rest i; simp
  | cons x p ih =>
    intro rest i
    have harg : p.length + 1 + i = (p.length + i) + 1 := by omega
    simp only [List.cons_append, List.length_cons, harg, List.eraseIdx_cons_succ]
    rw [ih rest i]

theorem insertIdx_append_len {α : Type} :
    ∀ (pre rest : List α) (i : Nat) (y : α),
      List.insertIdx (pre.length + i) y (pre ++ rest) = pre ++ List.insertIdx i y rest := by
  intro pre
  induction pre with
  | nil => intro rest i y; simp
  | cons x p ih =>
    intro rest i y
    have harg : p.length + 1 + i = (p.length + i) + 1 := by omega
    simp only [List.cons_append, List.length_cons, harg, List.insertIdx_succ_cons]
    rw [ih rest i y]

theorem editorInsertRow_in_range (st : EState) (n : Nat) (s : List Char)
    (h : n ≤ st.rows.length) :
    editorInsertRow (n : Int) s st
      = { st with rows := st.rows.insertIdx n s, dirty := st.dirty + 1 } := by
  unfold editorInsertRow
  rw [if_neg (by omega)]
  simp

theorem getD_append_len0 {α : Type} (d : α) (pre rest : List α) :
    (pre ++ rest).getD pre.length d = rest.getD 0 d := by
  have h := getD_append_len d pre rest 0
  rw [Nat.add_zero] at h
  exact h

theorem set_append_len0 {α : Type} (pre rest : List α) (y : α) :
    (pre ++ rest).set pre.length y = pre ++ rest.set 0 y := by
  have h := set_append_len pre rest 0 y
  rw [Nat.add_zero] at h
  exact h

theorem insertIdx_append_len0 {α : Type} (pre rest : List α) (y : α) :
    List.insertIdx pre.length y (pre ++ rest) = pre ++ y :: rest := by
  have h := insertIdx_append_len pre rest 0 y
  rw [Nat.add_zero] at h
  simpa using h

/-- C4: with the cursor at offset `cx <= row length` on an existing row
(the row at index `pre.length` of document `pre ++ row :: post`),
editorInsertNewLine followed immediately by editorDelChar (the cursor then
sits at the start of the newly created row) restores every row exactly, and
the cursor returns to `(cx, pre.length)`; only the dirty counter moved
(by 3: one row insertion, one append, one row deletion). -/
theorem insertNewLine_delChar_inverse
    (pre post : List (List Char)) (row : List Char)
    (cx ro co sr sc d : Nat) (hcx : cx ≤ row.length) :
    editorDelChar (editorInsertNewLine
        ⟨cx, pre.length, ro, co, sr, sc, pre ++ row :: post, d⟩)
      = ⟨cx, pre.length, ro, co, sr, sc, pre ++ row :: post, d + 3⟩ := by
  by_cases hcx0 : cx = 0
  · subst hcx0
    have h1 : editorInsertNewLine ⟨0, pre.length, ro, co, sr, sc, pre ++ row :: post, d⟩
        = ⟨0, pre.length + 1, ro, co, sr, sc, pre ++ [] :: row :: post, d + 1⟩ := by
      simp only [editorInsertNewLine, if_true]
      rw [editorInsertRow_in_range _ _ _ (by simp)]
      simp [insertIdx_append_len0]
    rw [h1]
    unfold editorDelChar
    rw [if_neg (by simp)]
    rw [if_neg (by simp)]
    rw [if_neg (by simp)]
    simp [getD_append_len0, getD_append_len, set_append_len0, set_append_len,
      eraseIdx_append_len, List.getElem_append_right]
  · have hpos : 0 < cx := Nat.pos_of_ne_zero hcx0
    have hcast : ((pre.length : Int) + 1) = ((pre.length + 1 : Nat) : Int) := by
      push_cast
      ring
    have h1 : editorInsertNewLine ⟨cx, pre.length, ro, co, sr, sc, pre ++ row :: post, d⟩
        = ⟨0, pre.length + 1, ro, co, sr, sc,
            pre ++ row.take cx :: row.drop cx :: post, d + 1⟩ := by
      simp only [editorInsertNewLine]
      rw [if_neg (by simpa using hcx0)]
      have hgd : (pre ++ row :: post).getD pre.length [] = row := by
        rw [getD_append_len0]
        rfl
      simp only [hgd, hcast]
      rw [editorInsertRow_in_range _ _ _ (by simp)]
      simp [insertIdx_append_len, set_append_len0]
    rw [h1]
    have hlen_take : (List.take cx row).length = cx := by
      rw [List.length_take]
      exact Nat.min_eq_left hcx
    unfold editorDelChar
    rw [if_neg (by simp)]
    rw [if_neg (by simp)]
    rw [if_neg (by simp)]
    simp [getD_append_len0, getD_append_len, set_append_len0, set_append_len,
      eraseIdx_append_len, List.getElem_append_right, hlen_take]

/-- Witness for C4: splitting "abc" at offset 2 in a two-row document and
deleting backward restores the document. -/
theorem insertNewLine_delChar_inverse_witness :
    editorDelChar (editorInsertNewLine
        ⟨2, 1, 0, 0, 24, 80, [['z'], ['a', 'b', 'c']], 7⟩)
      = ⟨2, 1, 0, 0, 24, 80, [['z'], ['a', 'b', 'c']], 10⟩ :=
  insertNewLine_delChar_inverse [['z']] [] ['a', 'b', 'c'] 2 0 0 24 80 7 (by decide)

/-! ## Search (C8) -/

theorem editorFindLoop_no_match (q : List Char) (st : EState) :
    ∀ (rs : List (List Char)) (i : Nat),
      (∀ j, j < rs.length → strstrPos (editorUpdateRow (rs.getD j [])) q = none) →
      editorFindLoop q st i rs = st := by
  intro rs
  induction rs with
  | nil => intro i h; rfl
  | cons row rest ih =>
    intro i h
    have h0 := h 0 (by simp)
    simp only [List.getD_cons_zero] at h0
    simp only [editorFindLoop, h0]
    refine ih (i + 1) (fun j hj => ?_)
    have hj1 := h (j + 1) (by simpa using Nat.succ_lt_succ hj)
    simpa using hj1

theorem editorFindLoop_match (q : List Char) (st : EState) :
    ∀ (rs : List (List Char)) (m i p : Nat),
      m < rs.length →
      (∀ j, j < m → strstrPos (editorUpdateRow (rs.getD j [])) q = none) →
      strstrPos (editorUpdateRow (rs.getD m [])) q = some p →
      editorFindLoop q st i rs
        = { st with cy := i + m, cx := editorRowRxToCx (rs.getD m []) p,
                    rowoff := st.rows.length } := by
  intro rs
  induction rs with
  | nil =>
    intro m i p hm
    simp at hm
  | cons row rest ih =>
    intro m i p hm hnone hsome
    cases m with
    | zero =>
      simp only [List.getD_cons_zero] at hsome ⊢
      simp [editorFindLoop, hsome]
    | succ m2 =>
      have h0 := hnone 0 (Nat.succ_pos m2)
      simp only [List.getD_cons_zero] at h0
      simp only [editorFindLoop, h0]
      have hrec := ih m2 (i + 1) p (by simpa using hm)
        (fun j hj => by
          have hj1 := hnone (j + 1) (Nat.succ_lt_succ hj)
          simpa using hj1)
        (by simpa using hsome)
      rw [hrec]
      have harg : i + 1 + m2 = i + (m2 + 1) := by omega
      simp [harg]

theorem editorScroll_rowoff_eq_cy (s : EState) (h : s.cy < s.rowoff)
    (hsr : 1 ≤ s.screenrows) :
    (editorScroll s).rowoff = s.cy := by
  simp only [editorScroll]
  split_ifs <;> first | rfl | (simp_all only []; omega)

/-- C8: for a confirmed non-empty query, editorFind leaves the cursor (and
whole state) unchanged when no row's render contains the query; at the first
row (index `m`, all rows before it matchless) whose render contains the
query at render offset `p`, it sets `cy = m`, `cx` to the char offset of
display column `p` in that row, and `rowoff` to the row count, which makes
the next editorScroll put the match row at `rowoff = cy`, inside the
window. -/
theorem editorFind_spec (st : EState) (q : List Char) (_hq : q ≠ []) :
    ((∀ j, j < st.rows.length →
        strstrPos (editorUpdateRow (st.rows.getD j [])) q = none) →
      editorFind (some q) st = st)
    ∧ (∀ m p, m < st.rows.length →
        (∀ j, j < m → strstrPos (editorUpdateRow (st.rows.getD j [])) q = none) →
        strstrPos (editorUpdateRow (st.rows.getD m [])) q = some p →
        (editorFind (some q) st).cy = m
        ∧ (editorFind (some q) st).cx = editorRowRxToCx (st.rows.getD m []) p
        ∧ (editorFind (some q) st).rowoff = st.rows.length
        ∧ (1 ≤ st.screenrows →
            (editorScroll (editorFind (some q) st)).rowoff ≤ m
            ∧ m < (editorScroll (editorFind (some q) st)).rowoff + st.screenrows)) := by
  constructor
  · intro hnone
    exact editorFindLoop_no_match q st st.rows 0 hnone
  · intro m p hm hnone hsome
    have hloop := editorFindLoop_match q st st.rows m 0 p hm hnone hsome
    rw [Nat.zero_add] at hloop
    have hfind : editorFind (some q) st
        = { st with cy := m, cx := editorRowRxToCx (st.rows.getD m []) p,
                    rowoff := st.rows.length } := hloop
    refine ⟨by rw [hfind], by rw [hfind], by rw [hfind], ?_⟩
    intro hsr
    have hscroll : (editorScroll (editorFind (some q) st)).rowoff = m := by
      rw [hfind]
      rw [editorScroll_rowoff_eq_cy _ (by simpa using hm) (by simpa using hsr)]
    rw [hscroll]
    omega

/-- Witness for C8: searching "bx" in the document ["a", "zbx"] moves the
cursor to row 1, column 1, and sets rowoff to the row count 2. -/
theorem editorFind_spec_witness :
    (editorFind (some ['b', 'x']) ⟨0, 0, 5, 0, 24, 80, [['a'], ['z', 'b', 'x']], 0⟩).cy = 1
    ∧ (editorFind (some ['b', 'x']) ⟨0, 0, 5, 0, 24, 80, [['a'], ['z', 'b', 'x']], 0⟩).cx
        = editorRowRxToCx (([['a'], ['z', 'b', 'x']] : List (List Char)).getD 1 []) 1
    ∧ (editorFind (some ['b', 'x']) ⟨0, 0, 5, 0, 24, 80, [['a'], ['z', 'b', 'x']], 0⟩).rowoff
        = 2 := by
  have h := (editorFind_spec ⟨0, 0, 5, 0, 24, 80, [['a'], ['z', 'b', 'x']], 0⟩
      ['b', 'x'] (by decide)).2 1 1 (by decide)
    (fun j hj => by
      have hj0 : j = 0 := by omega
      subst hj0
      decide)
    (by decide)
  exact ⟨h.1, h.2.1, h.2.2.1⟩
